import Mathlib

/-!
Shallow embedding of the varlink Rust implementation (code generator,
certification-server client-id table, and client connection setup), with
theorems settling the frozen specification claims.

Strings manipulated character-by-character by the Rust code
(`generator.rs::to_snake_case`) are modelled as lists of Unicode scalar
values (`List Nat`); the Rust `char::is_uppercase` / `char::to_lowercase`
pair is modelled on the ASCII range, which covers every identifier the
varlink IDL admits.  Strings used only as whole tokens are modelled as
Lean `String`s.
-/

namespace Varlink

/-! ## Character-level string model for `to_snake_case` (generator.rs:146-174) -/

/-- A Rust string, as the list of its Unicode scalar values. -/
abbrev RStr := List Nat

/-- Scalar values of a Lean string literal, for writing concrete inputs. -/
def codes (s : String) : RStr := s.data.map Char.toNat

/-- The code point of the underscore character. -/
def usCp : Nat := 95

/-- The code point of the apostrophe character. -/
def aposCp : Nat := 39

/-- Rust `char::is_uppercase` on the ASCII range. -/
def isUpperCp (c : Nat) : Bool := 65 ≤ c && c ≤ 90

/-- Rust `char::is_lowercase` on the ASCII range. -/
def isLowerCp (c : Nat) : Bool := 97 ≤ c && c ≤ 122

/-- Rust `char::to_lowercase` on the ASCII range (a single char there). -/
def toLowerCp (c : Nat) : Nat := if isUpperCp c then c + 32 else c

/-- ASCII alphanumeric predicate (the characters varlink IDL names are made of). -/
def isAlnumCp (c : Nat) : Bool :=
  (48 ≤ c && c ≤ 57) || (65 ≤ c && c ≤ 90) || (97 ≤ c && c ≤ 122)

/-- Rust `str::split('_')`: like Rust, the split of the empty string is `[[]]`,
and consecutive separators yield empty pieces. -/
def splitUS : RStr → List RStr
  | [] => [[]]
  | c :: rest =>
    if c = usCp then [] :: splitUS rest
    else
      match splitUS rest with
      | w :: ws => (c :: w) :: ws
      | [] => [[c]]

/-- The inner character loop of `to_snake_case` for one word `cs`:
`buf` is the (already lowercased) piece being accumulated and `lu` records
whether the previous character was uppercase.  A new piece starts before an
uppercase character when the buffer is non-empty, is not a lone apostrophe,
and the previous character was not uppercase (generator.rs:163-171). -/
def pwLoop : RStr → RStr → Bool → List RStr
  | [], buf, _ => [buf]
  | c :: rest, buf, lu =>
    if buf ≠ [] ∧ buf ≠ [aposCp] ∧ isUpperCp c = true ∧ lu = false then
      buf :: pwLoop rest [toLowerCp c] (isUpperCp c)
    else
      pwLoop rest (buf ++ [toLowerCp c]) (isUpperCp c)

/-- Rust `Vec::join("_")` on the collected words. -/
def joinUS : List RStr → RStr
  | [] => []
  | [w] => w
  | w :: ws => w ++ usCp :: joinUS ws

/-- The word loop of `to_snake_case`: empty words (from consecutive or
trailing underscores) are skipped (generator.rs:160-162), the others are
split and lowercased by `pwLoop`. -/
def processWords : List RStr → List RStr
  | [] => []
  | w :: ws => if w = [] then processWords ws else pwLoop w [] false ++ processWords ws

/-- `generator.rs::to_snake_case`: leading underscores each contribute an
empty word (preserving them across the final join), the remainder is split
on underscores and each word is camel-split and lowercased. -/
def to_snake_case (s : RStr) : RStr :=
  joinUS (List.replicate (s.takeWhile (fun c => c = usCp)).length [] ++
    processWords (splitUS (s.dropWhile (fun c => c = usCp))))

/-- Last-character test used to decide a camel split in the spec-side
algorithms: `prevOk` applied to the last character of the accumulated piece
(there is no previous character at the start of a piece). -/
def lastOk (prevOk : Nat → Bool) (acc : RStr) : Bool :=
  match acc.getLast? with
  | some p => prevOk p
  | none => false

/-- Camel-splitting of one word as the specification text describes it,
parameterized by the condition `prevOk` on the character preceding an
uppercase character: the accumulated piece is closed before an uppercase
character whose predecessor satisfies `prevOk`. -/
def camelLoop (prevOk : Nat → Bool) : RStr → RStr → List RStr
  | [], acc => [acc]
  | c :: rest, acc =>
    if acc ≠ [] ∧ isUpperCp c = true ∧ lastOk prevOk acc = true then
      acc :: camelLoop prevOk rest [c]
    else
      camelLoop prevOk rest (acc ++ [c])

/-- The snake-case algorithm exactly as the specification words it
(claim C3): preserve leading underscores; split on underscore; within each
word split before an uppercase character that follows a **lowercase**
character; lowercase all pieces; rejoin with underscore. -/
def snakeSpec (s : RStr) : RStr :=
  List.replicate (s.takeWhile (fun c => c = usCp)).length usCp ++
    joinUS ((splitUS (s.dropWhile (fun c => c = usCp))).flatMap
      (fun w => (camelLoop isLowerCp w []).map (List.map toLowerCp)))

/-- The specification algorithm with the split condition amended to
"follows a character that is **not uppercase**", which is what the code
implements on alphanumeric words. -/
def snakeSpecFixed (s : RStr) : RStr :=
  List.replicate (s.takeWhile (fun c => c = usCp)).length usCp ++
    joinUS ((splitUS (s.dropWhile (fun c => c = usCp))).flatMap
      (fun w => (camelLoop (fun p => !isUpperCp p) w []).map (List.map toLowerCp)))

/-- Modelled from the spec: varlink IDL method names are CamelCase
identifiers (an uppercase letter followed by ASCII alphanumerics); the IDL
parser enforcing this is outside the embedded sources. -/
def isMethodName (s : RStr) : Bool :=
  match s with
  | [] => false
  | c :: _ => isUpperCp c && s.all isAlnumCp

/-- The handler entry-point name the generator emits for an IDL method
(generator.rs:604-610 uses `to_snake_case(t.name)`). -/
def handlerEntryName (mname : RStr) : RStr := to_snake_case mname

end Varlink

namespace Varlink

end Varlink

namespace Varlink

/-! ## IDL type AST and the generator's type mapping (generator.rs:77-144) -/

mutual

/-- `varlink_parser::VType` (typed access assumed by the spec): the
element types of the IDL. -/
inductive VType where
  | bool : VType
  | int : VType
  | float : VType
  | string : VType
  | object : VType
  | typename : String → VType
  | venum : List String → VType
  | vstruct : VStruct → VType

/-- `varlink_parser::VStruct`: an ordered list of named, typed fields. -/
inductive VStruct where
  | mk : List VArgument → VStruct

/-- A named, typed field of a struct. -/
inductive VArgument where
  | mk : String → VTypeExt → VArgument

/-- `varlink_parser::VTypeExt`: a field type expression. -/
inductive VTypeExt where
  | plain : VType → VTypeExt
  | array : VTypeExt → VTypeExt
  | dict : VTypeExt → VTypeExt
  | opt : VTypeExt → VTypeExt

end

/-- `ToRust::to_rust` for `VTypeExt` (and, inlined, for `VType`), made
pure: it returns the emitted Rust type string together with the enum and
struct entries pushed onto `enumvec` / `structvec`, in push order
(generator.rs:89-144). -/
def toRustExt : VTypeExt → String →
    String × List (String × List String) × List (String × VStruct)
  | .plain .bool, _ => ("bool", [], [])
  | .plain .int, _ => ("i64", [], [])
  | .plain .float, _ => ("f64", [], [])
  | .plain .string, _ => ("String", [], [])
  | .plain .object, _ => ("Value", [], [])
  | .plain (.typename v), _ => (v, [], [])
  | .plain (.venum elts), parent => (parent, [(parent, elts)], [])
  | .plain (.vstruct v), parent => (parent, [], [(parent, v)])
  | .array v, parent =>
    let r := toRustExt v parent
    ("Vec<" ++ r.1 ++ ">", r.2.1, r.2.2)
  | .dict v, parent =>
    match v with
    | .plain (.vstruct (.mk [])) => ("varlink::StringHashSet", [], [])
    | _ =>
      let r := toRustExt v parent
      ("varlink::StringHashMap<" ++ r.1 ++ ">", r.2.1, r.2.2)
  | .opt v, parent =>
    let r := toRustExt v parent
    ("Option<" ++ r.1 ++ ">", r.2.1, r.2.2)

mutual

/-- Size of a field type expression, the termination measure for the
nested-type emission loop. -/
def sizeTE : VTypeExt → Nat
  | .plain t => 1 + sizeT t
  | .array v => 1 + sizeTE v
  | .dict v => 1 + sizeTE v
  | .opt v => 1 + sizeTE v

/-- Size of an element type. -/
def sizeT : VType → Nat
  | .vstruct v => 1 + sizeVS v
  | _ => 1

/-- Size of a struct body. -/
def sizeVS : VStruct → Nat
  | .mk elts => 1 + sizeArgs elts

/-- Size of a field list. -/
def sizeArgs : List VArgument → Nat
  | [] => 0
  | a :: r => sizeArg a + sizeArgs r

/-- Size of one field. -/
def sizeArg : VArgument → Nat
  | .mk _ t => 1 + sizeTE t

end

/-- Total size of the struct entries held in a work queue. -/
def sumQ : List (String × VStruct) → Nat
  | [] => 0
  | q :: r => sizeVS q.2 + sumQ r

/-- Struct entries queued while emitting the fields of one queued struct:
each field of `(name, v)` is rendered with parent `name ++ "_" ++ field`
(generator.rs:342-364). -/
def queuedOfArgs (name : String) : List VArgument → List (String × VStruct)
  | [] => []
  | .mk en ty :: rest =>
    (toRustExt ty (name ++ "_" ++ en)).2.2 ++ queuedOfArgs name rest

/-- Struct entries queued while emitting one queued struct. -/
def queuedOfStruct (name : String) : VStruct → List (String × VStruct)
  | .mk elts => queuedOfArgs name elts

/-- Draining the struct queue for one loop iteration: the next struct
queue is everything pushed onto `nstructvec` while the current queue is
emitted (generator.rs:340-364). -/
def nextQueue : List (String × VStruct) → List (String × VStruct)
  | [] => []
  | (n, v) :: rest => queuedOfStruct n v ++ nextQueue rest

/-- One iteration of the fixed-point emission loop, restricted to its work
queues: the struct queue is drained into the next struct queue, and the
enum queue (the enums pending at entry plus those pushed while draining
the structs) is drained completely, leaving it empty
(generator.rs:340-384). -/
def stepQueues (s : List (String × VStruct) × List (String × List String)) :
    List (String × VStruct) × List (String × List String) :=
  (nextQueue s.1, [])

end Varlink

namespace Varlink

end Varlink

namespace Varlink

/-! ## Identifier hygiene (generator.rs:176-204) -/

/-- `generator.rs::is_rust_keyword`: the exact reserved-word list of the
source (generator.rs:176-187). -/
def is_rust_keyword (v : String) : Bool :=
  ["abstract", "alignof", "as", "become", "box", "break", "const", "continue",
   "crate", "do", "else", "enum", "extern", "false", "final", "fn", "for", "if",
   "impl", "in", "let", "loop", "macro", "match", "mod", "move", "mut",
   "offsetof", "override", "priv", "proc", "pub", "pure", "ref", "return",
   "Self", "self", "sizeof", "static", "struct", "super", "trait", "true",
   "type", "typeof", "unsafe", "unsized", "use", "virtual", "where", "while",
   "yield"].contains v

/-- `generator.rs::replace_if_rust_keyword`. -/
def replace_if_rust_keyword (v : String) : String :=
  if is_rust_keyword v then v ++ "_" else v

/-- A field as emitted: the optional serde rename annotation written before
it (carrying the wire name) and the in-memory field name. -/
structure EmittedField where
  rename : Option String
  memName : String
deriving DecidableEq

/-- `generator.rs::replace_if_rust_keyword_annotate` (generator.rs:197-204):
for a keyword the function writes `#[serde(rename = "<v>")]` and returns
`v ++ "_"`; otherwise it writes nothing and returns `v` unchanged. -/
def replace_if_rust_keyword_annotate (v : String) : EmittedField :=
  if is_rust_keyword v then { rename := some v, memName := v ++ "_" }
  else { rename := none, memName := v }

/-- Modelled from the spec (serde's documented semantics): the serialized
(wire) name of a field is the rename-annotation target when present,
otherwise the in-memory field name. -/
def wireName (f : EmittedField) : String := f.rename.getD f.memName

/-! ## Generated proxy dispatch (generator.rs:775-842) and the
certification `Start` request check (varlink-certification/src/main.rs:340-377).
The serde value type is kept as a parameter `V`, the deserialized argument
type as `A`; the generated dispatch never inspects values beyond cloning
and comparing them. -/

/-- A wire request, over an abstract serde value type `V`
(the fields of `varlink::Request` the embedded code reads). -/
structure Request (V : Type) where
  method : String
  parameters : Option V
  more : Option Bool
  oneway : Option Bool
  upgrade : Option Bool
deriving DecidableEq

/-- Observable outcome of `VarlinkInterfaceProxy::call` on one request. -/
inductive CallOutcome (A : Type) where
  | invoked : String → A → CallOutcome A
  | invokedNoArgs : String → CallOutcome A
  | invalidParameter : String → CallOutcome A
  | methodNotFound : String → CallOutcome A
  | serdeErr : CallOutcome A
deriving DecidableEq

/-- The generated `VarlinkInterfaceProxy::call` (generator.rs:781-842):
`methods` lists each IDL method name with whether it has declared input
fields, in emission order; `des` is serde deserialization of the
`parameters` value into the method's `Args_` type (`none` = serde error,
which the generated `?` propagates).  A method with input fields replies
`InvalidParameter("parameters")` when `parameters` is absent and otherwise
deserializes; a method without input fields ignores `parameters` entirely. -/
def proxyCall {V A : Type} (iface : String) (methods : List (String × Bool))
    (des : String → V → Option A) (req : Request V) : CallOutcome A :=
  match methods.find? (fun md => req.method == iface ++ "." ++ md.1) with
  | none => .methodNotFound req.method
  | some md =>
    if md.2 then
      match req.parameters with
      | some p =>
        match des md.1 p with
        | some v => .invoked md.1 v
        | none => .serdeErr
      | none => .invalidParameter "parameters"
    else .invokedNoArgs md.1

/-- The request check of `CertInterface::start`
(varlink-certification/src/main.rs:341-366): the call is accepted when
none of `more`/`oneway`/`upgrade` is set, the method is
`org.varlink.certification.Start`, and `parameters` is either absent or the
empty object (`emptyObj` is `Value::Object(Map::new())`). -/
def startAccept {V : Type} [DecidableEq V] (emptyObj : V) (req : Request V) : Bool :=
  if req.more = some true ∨ req.upgrade = some true ∨ req.oneway = some true then
    false
  else
    decide (req.method = "org.varlink.certification.Start" ∧
      (req.parameters = none ∨ req.parameters = some emptyObj))

/-! ## Generated client-side error type and `From<Reply>` (generator.rs:440-514) -/

/-- A wire reply, over an abstract serde value type `V`. -/
structure Reply (V : Type) where
  error : Option String
  parameters : Option V
deriving DecidableEq

/-- Shape of the generated per-interface `Error` enum: one variant per IDL
error (carrying `Option<<E>Args_>`, modelled by `Option A`) plus the four
generic variants the generator emits (generator.rs:440-452). -/
inductive GenError (V A : Type) where
  | declared : String → Option A → GenError V A
  | varlinkError : Reply V → GenError V A
  | unknownError : Reply V → GenError V A
  | ioError : GenError V A
  | jsonError : GenError V A
deriving DecidableEq

/-- The variant list of the generated `Error` enum, as emitted
(generator.rs:440-452). -/
def errorEnumVariants (errs : List String) : List String :=
  errs.map (fun e => e ++ "(Option<" ++ e ++ "Args_>)") ++
    ["VarlinkError(varlink::Error)", "UnknownError_(varlink::Reply)",
     "IOError_(io::Error)", "JSONError_(serde_json::Error)"]

/-- Modelled from the spec: `varlink::Error::is_error` (not among the
embedded sources) recognizes a reply whose `error` field is one of the
error names the core itself emits, all under `org.varlink.service`. -/
def is_error {V : Type} (r : Reply V) : Bool :=
  match r.error with
  | some e =>
    ["org.varlink.service.InterfaceNotFound", "org.varlink.service.MethodNotFound",
     "org.varlink.service.MethodNotImplemented",
     "org.varlink.service.InvalidParameter"].contains e
  | none => false

/-- Payload placed in a declared-error variant: `parameters` deserialized
as `Option<<E>Args_>` (`des` returning `none` models a serde error, which
the generated match turns into the variant with `None`); an absent
`parameters` also yields `None` (generator.rs:486-500). -/
def declPayload {V A : Type} (des : String → V → Option (Option A))
    (ename : String) (p : Option V) : Option A :=
  match p with
  | some pv => (des ename pv).getD none
  | none => none

/-- The generated `From<varlink::Reply> for Error` (generator.rs:473-514):
replies recognized by `varlink::Error::is_error` become `VarlinkError`;
otherwise the `error` name is compared against `"<iface>.<E>"` for each
declared error `E` in order, and on a match the `parameters` payload is
deserialized into that variant; anything else becomes `UnknownError_`. -/
def fromReply {V A : Type} (iface : String) (errs : List String)
    (des : String → V → Option (Option A)) (r : Reply V) : GenError V A :=
  if is_error r then .varlinkError r
  else
    match r.error with
    | some te =>
      match errs.find? (fun en => te == iface ++ "." ++ en) with
      | some en => .declared en (declPayload des en r.parameters)
      | none => .unknownError r
    | none => .unknownError r

end Varlink

namespace Varlink

/-! ## Certification client-id table (varlink-certification/src/main.rs:673-736).
`Instant` is modelled as seconds (`Nat`), `instant.elapsed().as_secs()` as
truncated subtraction from the current time; the hash-derived fresh client
id of `new_client_id` is a parameter. -/

/-- Remove a key from the contexts map (`HashMap::remove`). -/
def removeKey (m : List (String × String)) (k : String) : List (String × String) :=
  m.filter (fun q => !(q.1 == k))

/-- First-match lookup (`HashMap::get_mut`, on the association-list model). -/
def lookupKey (m : List (String × String)) (k : String) : Option String :=
  (m.find? (fun q => q.1 == k)).map (fun q => q.2)

/-- Overwrite the value stored under an existing key. -/
def updateKey : List (String × String) → String → String → List (String × String)
  | [], _, _ => []
  | q :: rest, k, v => if q.1 = k then (k, v) :: rest else q :: updateKey rest k v

/-- `HashMap::insert`: replace the value if the key is present, otherwise
add the binding. -/
def insertKey (m : List (String × String)) (k v : String) :
    List (String × String) :=
  if (m.find? (fun q => q.1 == k)).isSome then updateKey m k v else m ++ [(k, v)]

/-- The `ClientIds` state: the FIFO `lifetimes` queue of
`(creation instant, client id)` pairs (front first), the `contexts` map
from client id to its `Context { test }` string, and the TTL. -/
structure ClientIds where
  lifetimes : List (Nat × String)
  contexts : List (String × String)
  max_lifetime : Nat
deriving DecidableEq

/-- The eviction loop body of `ClientIds::check_lifetime_timeout`
(main.rs:700-720): pop expired entries (strictly older than the TTL) from
the queue front, removing each popped id from the map, and stop at the
first non-expired front entry. -/
def evictLoop (now maxL : Nat) :
    List (Nat × String) → List (String × String) →
    List (Nat × String) × List (String × String)
  | [], ctx => ([], ctx)
  | (t, cid) :: rest, ctx =>
    if now - t > maxL then evictLoop now maxL rest (removeKey ctx cid)
    else ((t, cid) :: rest, ctx)

/-- `ClientIds::check_lifetime_timeout`. -/
def ClientIds.check_lifetime_timeout (now : Nat) (st : ClientIds) : ClientIds :=
  let r := evictLoop now st.max_lifetime st.lifetimes st.contexts
  { st with lifetimes := r.1, contexts := r.2 }

/-- `ClientIds::check_client_id` (main.rs:684-698): evict, then look the id
up; on a hit whose stored test matches, advance it to `next_test` and
answer `true`, otherwise answer `false`. -/
def ClientIds.check_client_id (now : Nat) (client_id test next_test : String)
    (st : ClientIds) : Bool × ClientIds :=
  let st1 := st.check_lifetime_timeout now
  match lookupKey st1.contexts client_id with
  | some t =>
    if t ≠ test then (false, st1)
    else (true, { st1 with contexts := updateKey st1.contexts client_id next_test })
  | none => (false, st1)

/-- `ClientIds::new_client_id` (main.rs:722-735): insert the fresh id with
test `"Test01"` and push `(now, id)` at the queue back.  No eviction is
performed. -/
def ClientIds.new_client_id (now : Nat) (client_id : String) (st : ClientIds) :
    String × ClientIds :=
  (client_id,
   { st with
     contexts := insertKey st.contexts client_id "Test01",
     lifetimes := st.lifetimes ++ [(now, client_id)] })

/-! ## Client connection setup for `exec:` addresses
(varlink/src/client.rs:59-137, Linux variant).  Addresses are lists of
characters; process effects are returned as a description record. -/

/-- Characters of a Lean string literal. -/
def chars (s : String) : List Char := s.data

/-- Description of the child process `varlink_exec` spawns: the program,
its single argument, the environment variables set in the child before
`exec` (so they are inherited by the program), and whether file
descriptor 3 is the pre-bound listening socket after the
`close(3)`/`dup2(fd, 3)` dance (client.rs:76-87). -/
structure ExecSpawn where
  executable : List Char
  arg : List Char
  env : List (List Char × List Char)
  fd3IsListener : Bool
deriving DecidableEq

/-- `client.rs::varlink_exec` (Linux variant, client.rs:60-94):
`abstractPath` is the kernel-chosen abstract-namespace name the pre-bound
listener got, and `childPid` the pid `getpid()` reports inside the forked
child (the `before_exec` closure runs there).  Returns the spawn
description and the rewritten address. -/
def varlink_exec (address : List Char) (abstractPath : List Char)
    (childPid : Nat) : ExecSpawn × List Char :=
  ({ executable := address.drop 5,
     arg := chars "--varlink=unix:@" ++ abstractPath,
     env := [(chars "LISTEN_FDS", chars "1"),
             (chars "LISTEN_FDNAMES", chars "varlink"),
             (chars "LISTEN_PID", chars (toString childPid))],
     fd3IsListener := true },
   chars "unix:@" ++ abstractPath)

/-- Where `VarlinkStream::connect` dials. -/
inductive Dial where
  | tcp : List Char → Dial
  | unixPath : List Char → Dial
  | unixAbstract : List Char → Dial
  | failUnknown : Dial
deriving DecidableEq

/-- Rust `str::replacen(from, to, 1)`: replace the first occurrence. -/
def replaceFirst : List Char → Char → Char → List Char
  | [], _, _ => []
  | c :: r, a, b => if c = a then b :: r else c :: replaceFirst r a b

/-- `VarlinkStream::connect` (client.rs:97-137): for an `exec:` address the
child is spawned and the address replaced by the one `varlink_exec`
returns; then the (possibly rewritten) address is dialed: `tcp:` by host
and port, `unix:` by path up to the first `;`, with a leading `@` replaced
by a NUL byte for the abstract namespace. -/
def connect (address : List Char) (abstractPath : List Char) (childPid : Nat) :
    Option ExecSpawn × Dial × List Char :=
  let s :=
    if (chars "exec:").isPrefixOf address then
      let r := varlink_exec address abstractPath childPid
      (some r.1, r.2)
    else (none, address)
  let addr2 := s.2
  if (chars "tcp:").isPrefixOf addr2 then (s.1, .tcp (addr2.drop 4), addr2)
  else if (chars "unix:").isPrefixOf addr2 then
    let a := (addr2.drop 5).takeWhile (fun c => c ≠ ';')
    if (chars "@").isPrefixOf a then
      (s.1, .unixAbstract (replaceFirst a '@' (Char.ofNat 0)), addr2)
    else (s.1, .unixPath a, addr2)
  else (s.1, .failUnknown, addr2)

end Varlink

namespace Varlink

end Varlink

namespace Varlink

/-! ## Statement-level predicates for the claims -/

/-- Whether a generated Rust type string is an `Option<...>` type. -/
def optPrefix (s : String) : Bool := "Option<".data.isPrefixOf s.data

/-- Whether an IDL field type expression is the optional form `?T`. -/
def isOptTE : VTypeExt → Bool
  | .opt _ => true
  | _ => false

/-- An IDL identifier never contains `<` (IDL names are ASCII
alphanumerics with underscores and dots). -/
def noLtChar (s : String) : Bool := decide ('<' ∉ s.data)

/-- Every typename occurring in a field type expression is an IDL
identifier. -/
def idlNamesOk : VTypeExt → Bool
  | .plain (.typename v) => noLtChar v
  | .plain _ => true
  | .array v => idlNamesOk v
  | .dict v => idlNamesOk v
  | .opt v => idlNamesOk v

end Varlink

namespace Varlink

/-! ## Theorems.  Helper lemmas first, then one theorem per claim
(with its witness or counterexample). -/

/-- Unfolding of `joinUS` on a cons whose tail is non-empty. -/
theorem joinUS_cons_of_ne (w : RStr) (ws : List RStr) (h : ws ≠ []) :
    joinUS (w :: ws) = w ++ usCp :: joinUS ws := by
  cases ws with
  | nil => exact absurd rfl h
  | cons x xs => rfl

/-- A `StringHashMap` type string is never the `StringHashSet` type string. -/
theorem mapStr_ne_setStr (s : String) :
    "varlink::StringHashMap<" ++ s ++ ">" ≠ "varlink::StringHashSet" := by
  intro h
  have h2 := congrArg String.length h
  rw [String.length_append, String.length_append] at h2
  have e1 : "varlink::StringHashMap<".length = 23 := rfl
  have e2 : (">" : String).length = 1 := rfl
  have e3 : "varlink::StringHashSet".length = 22 := rfl
  omega

/-- On every dictionary type except the one over the empty inline struct,
the generator emits a `StringHashMap` of the value mapping. -/
theorem toRust_dict_map (v : VTypeExt) (parent : String)
    (h : v ≠ .plain (.vstruct (.mk []))) :
    (toRustExt (.dict v) parent).1 =
      "varlink::StringHashMap<" ++ (toRustExt v parent).1 ++ ">" := by
  cases v with
  | plain t =>
    cases t with
    | vstruct s =>
      cases s with
      | mk elts =>
        cases elts with
        | nil => exact absurd rfl h
        | cons a r => rfl
    | bool => rfl
    | int => rfl
    | float => rfl
    | string => rfl
    | object => rfl
    | typename n => rfl
    | venum es => rfl
  | array v2 => rfl
  | dict v2 => rfl
  | opt v2 => rfl

/-- C6: a field whose name is a Rust reserved keyword is emitted under the
name with a trailing underscore together with a `#[serde(rename)]`
annotation naming the original, so the wire name is always the original
field name; non-keyword names are emitted unchanged with no annotation. -/
theorem C6_keyword_field_hygiene (v : String) :
    wireName (replace_if_rust_keyword_annotate v) = v ∧
    (replace_if_rust_keyword_annotate v).memName =
      (if is_rust_keyword v then v ++ "_" else v) ∧
    ((replace_if_rust_keyword_annotate v).rename.isSome ↔ is_rust_keyword v = true) := by
  unfold wireName replace_if_rust_keyword_annotate
  by_cases h : is_rust_keyword v <;> simp [h]

/-- C7: the generator maps `[string]T` to `varlink::StringHashSet` exactly
when `T` is an inline struct with zero fields, and otherwise to
`varlink::StringHashMap<R>` with `R` the mapping of `T`. -/
theorem C7_dict_mapping (v : VTypeExt) (parent : String) :
    ((toRustExt (.dict v) parent).1 = "varlink::StringHashSet" ↔
      v = .plain (.vstruct (.mk []))) ∧
    (v ≠ .plain (.vstruct (.mk [])) →
      (toRustExt (.dict v) parent).1 =
        "varlink::StringHashMap<" ++ (toRustExt v parent).1 ++ ">") := by
  constructor
  · constructor
    · intro h
      by_contra hne
      rw [toRust_dict_map v parent hne] at h
      exact mapStr_ne_setStr _ h
    · intro h
      subst h
      rfl
  · exact toRust_dict_map v parent

/-- C7 witness: on the dictionary over `bool` the map form is emitted. -/
theorem C7_dict_mapping_witness :
    (toRustExt (.dict (.plain .bool)) "P").1 =
      "varlink::StringHashMap<" ++ (toRustExt (.plain .bool) "P").1 ++ ">" :=
  (C7_dict_mapping (.plain .bool) "P").2 (by simp)

end Varlink

namespace Varlink

/-- A string whose first character is not `O` has no `Option<` prefix. -/
theorem not_optPrefix_cons (c : Char) (l : List Char) (hc : c ≠ 'O') :
    "Option<".data.isPrefixOf (c :: l) = false := by
  cases h : "Option<".data.isPrefixOf (c :: l) with
  | false => rfl
  | true =>
    rw [ List.isPrefixOf_iff_prefix] at h
    obtain ⟨t, ht⟩ := h
    have : 'O' = c := by
      have := congrArg (fun x => x.head?) ht
      simpa using this
    exact absurd this.symm hc

/-- A string without `<` has no `Option<` prefix. -/
theorem not_optPrefix_of_noLt (s : String) (h : noLtChar s = true) :
    optPrefix s = false := by
  cases hp : optPrefix s with
  | false => rfl
  | true =>
    unfold optPrefix at hp
    rw [ List.isPrefixOf_iff_prefix] at hp
    have hmem : '<' ∈ s.data := hp.subset (by decide)
    unfold noLtChar at h
    exact absurd hmem (of_decide_eq_true h)

/-- C8: the generated Rust type for an IDL field type is an `Option<...>`
type exactly when the IDL type is the optional form `?T`, and for `?T` it
is `Option<R>` with `R` the mapping of `T`; non-optional IDL types are
never wrapped in `Option` (given IDL-identifier typenames and parent). -/
theorem C8_option_mapping (t : VTypeExt) (parent : String)
    (hp : noLtChar parent = true) (ht : idlNamesOk t = true) :
    optPrefix (toRustExt t parent).1 = isOptTE t ∧
    (∀ v, t = .opt v →
      (toRustExt t parent).1 = "Option<" ++ (toRustExt v parent).1 ++ ">") := by
  constructor
  · cases t with
    | opt v =>
      show optPrefix ("Option<" ++ (toRustExt v parent).1 ++ ">") = true
      unfold optPrefix
      rw [ List.isPrefixOf_iff_prefix]
      have : ("Option<" ++ (toRustExt v parent).1 ++ ">").data =
          "Option<".data ++ ((toRustExt v parent).1.data ++ ">".data) := by
        rw [String.data_append, String.data_append, List.append_assoc]
      rw [this]
      exact List.prefix_append _ _
    | plain u =>
      cases u with
      | bool =>
        show optPrefix "bool" = false
        decide
      | int =>
        show optPrefix "i64" = false
        decide
      | float =>
        show optPrefix "f64" = false
        decide
      | string =>
        show optPrefix "String" = false
        decide
      | object =>
        show optPrefix "Value" = false
        decide
      | typename v =>
        show optPrefix v = false
        exact not_optPrefix_of_noLt v ht
      | venum es =>
        show optPrefix parent = false
        exact not_optPrefix_of_noLt parent hp
      | vstruct s =>
        show optPrefix parent = false
        exact not_optPrefix_of_noLt parent hp
    | array v =>
      show optPrefix ("Vec<" ++ (toRustExt v parent).1 ++ ">") = false
      unfold optPrefix
      have : ("Vec<" ++ (toRustExt v parent).1 ++ ">").data =
          'V' :: (['e', 'c', '<'] ++ ((toRustExt v parent).1.data ++ ">".data)) := by
        rw [String.data_append, String.data_append, List.append_assoc]
        rfl
      rw [this]
      exact not_optPrefix_cons _ _ (by decide)
    | dict v =>
      by_cases hv : v = .plain (.vstruct (.mk []))
      · subst hv
        show optPrefix "varlink::StringHashSet" = false
        decide
      · rw [show (toRustExt (.dict v) parent).1 =
            "varlink::StringHashMap<" ++ (toRustExt v parent).1 ++ ">" from
            toRust_dict_map v parent hv]
        unfold optPrefix
        have : ("varlink::StringHashMap<" ++ (toRustExt v parent).1 ++ ">").data =
            'v' :: ("arlink::StringHashMap<".data ++
              ((toRustExt v parent).1.data ++ ">".data)) := by
          rw [String.data_append, String.data_append, List.append_assoc]
          rfl
        rw [this]
        exact not_optPrefix_cons _ _ (by decide)
  · intro v h
    subst h
    rfl

/-- C8 witness: at `?bool` the mapping is `Option<bool>`, at plain `bool`
there is no `Option` wrapper. -/
theorem C8_option_mapping_witness :
    optPrefix (toRustExt (.opt (.plain .bool)) "P").1 = isOptTE (.opt (.plain .bool)) ∧
    optPrefix (toRustExt (.plain .bool) "P").1 = isOptTE (.plain .bool) :=
  ⟨(C8_option_mapping (.opt (.plain .bool)) "P" (by decide) (by decide)).1,
   (C8_option_mapping (.plain .bool) "P" (by decide) (by decide)).1⟩

end Varlink

namespace Varlink

/-- C1 counterexample: for the certification method `Test01` (which has
declared input fields), a request without `parameters` is answered with an
`InvalidParameter("parameters")` reply, while the identical request with
`parameters:{}` is instead deserialized (here failing with a propagated
serde error, as it does for `Test01_Args` and its mandatory `client_id`);
the two observable outcomes differ, refuting the claim. -/
theorem C1_counterexample :
    @proxyCall Nat Unit "org.varlink.certification" [("Test01", true)]
      (fun _ _ => none) ⟨"org.varlink.certification.Test01", none, none, none, none⟩ =
      .invalidParameter "parameters" ∧
    @proxyCall Nat Unit "org.varlink.certification" [("Test01", true)]
      (fun _ _ => none) ⟨"org.varlink.certification.Test01", some 0, none, none, none⟩ =
      .serdeErr ∧
    @proxyCall Nat Unit "org.varlink.certification" [("Test01", true)]
      (fun _ _ => none) ⟨"org.varlink.certification.Test01", none, none, none, none⟩ ≠
    @proxyCall Nat Unit "org.varlink.certification" [("Test01", true)]
      (fun _ _ => none) ⟨"org.varlink.certification.Test01", some 0, none, none, none⟩ := by
  refine ⟨rfl, rfl, ?_⟩
  intro h
  simp [proxyCall] at h

/-- C1 amended: a method **without** declared input fields ignores
`parameters` entirely, so absent and `{}` behave identically there (and
the certification `Start` check accepts absent and empty parameters
identically); but for a method **with** declared input fields the
generated proxy replies `InvalidParameter("parameters")` on an absent
`parameters` and never does so when `parameters` is present (it
deserializes, invoking the handler or propagating a serde error). -/
theorem C1_params_amended :
    (∀ (V A : Type) (iface : String) (methods : List (String × Bool))
       (des : String → V → Option A) (req1 req2 : Request V) (mname : String),
       req1.method = req2.method →
       methods.find? (fun md => req1.method == iface ++ "." ++ md.1) =
         some (mname, false) →
       proxyCall iface methods des req1 = .invokedNoArgs mname ∧
       proxyCall iface methods des req2 = .invokedNoArgs mname) ∧
    (∀ (V A : Type) (iface : String) (methods : List (String × Bool))
       (des : String → V → Option A) (req : Request V) (mname : String),
       methods.find? (fun md => req.method == iface ++ "." ++ md.1) =
         some (mname, true) →
       req.parameters = none →
       proxyCall iface methods des req = .invalidParameter "parameters") ∧
    (∀ (V A : Type) (iface : String) (methods : List (String × Bool))
       (des : String → V → Option A) (req : Request V) (mname : String) (p : V),
       methods.find? (fun md => req.method == iface ++ "." ++ md.1) =
         some (mname, true) →
       req.parameters = some p →
       proxyCall iface methods des req ≠ .invalidParameter "parameters") ∧
    (∀ (V : Type) (inst : DecidableEq V) (emptyObj : V) (m : String)
       (mo ow up : Option Bool),
       @startAccept V inst emptyObj ⟨m, none, mo, ow, up⟩ =
       @startAccept V inst emptyObj ⟨m, some emptyObj, mo, ow, up⟩) := by
  refine ⟨?_, ?_, ?_, ?_⟩
  · intro V A iface methods des req1 req2 mname hm hfind
    constructor
    · simp [proxyCall, hfind]
    · unfold proxyCall
      rw [← hm, hfind]
      simp
  · intro V A iface methods des req mname hfind hp
    simp [proxyCall, hfind, hp]
  · intro V A iface methods des req mname p hfind hp
    simp only [proxyCall, hfind, hp]
    cases des mname p <;> simp
  · intro V inst emptyObj m mo ow up
    unfold startAccept
    by_cases h : mo = some true ∨ up = some true ∨ ow = some true
    · simp [h]
    · simp [h]

/-- C1 amended witness: a no-args method at absent and empty parameters,
an args method at absent parameters, and the `Start` check, all at
concrete inputs. -/
theorem C1_params_amended_witness :
    (@proxyCall Nat Unit "i" [("M", false)] (fun _ _ => none)
       ⟨"i.M", none, none, none, none⟩ = .invokedNoArgs "M" ∧
     @proxyCall Nat Unit "i" [("M", false)] (fun _ _ => none)
       ⟨"i.M", some 0, none, none, none⟩ = .invokedNoArgs "M") ∧
    @proxyCall Nat Unit "i" [("N", true)] (fun _ _ => none)
      ⟨"i.N", none, none, none, none⟩ = .invalidParameter "parameters" :=
  ⟨C1_params_amended.1 Nat Unit "i" [("M", false)] (fun _ _ => none)
      ⟨"i.M", none, none, none, none⟩ ⟨"i.M", some 0, none, none, none⟩ "M" rfl (by decide),
   C1_params_amended.2.1 Nat Unit "i" [("N", true)] (fun _ _ => none)
      ⟨"i.N", none, none, none, none⟩ "N" (by decide) rfl⟩

end Varlink

namespace Varlink

/-- C2 counterexample: with TTL 1, a queue entry created at time 0 and the
current time 5, the entry is expired (5 - 0 > 1), yet `new_client_id`
leaves it at the queue front and its id in the contexts map: the claimed
eviction does not happen for `new_client_id`. -/
theorem C2_counterexample :
    5 - 0 > (ClientIds.mk [(0, "a")] [("a", "Test01")] 1).max_lifetime ∧
    (ClientIds.new_client_id 5 "b" ⟨[(0, "a")], [("a", "Test01")], 1⟩).2.lifetimes =
      [(0, "a"), (5, "b")] ∧
    lookupKey (ClientIds.new_client_id 5 "b"
      ⟨[(0, "a")], [("a", "Test01")], 1⟩).2.contexts "a" = some "Test01" := by
  refine ⟨by decide, by decide, by decide⟩

/-- Characterization of the eviction loop: it drops exactly the maximal
expired prefix of the queue and removes exactly those ids from the map. -/
theorem evictLoop_eq (now maxL : Nat) (lt : List (Nat × String))
    (ctx : List (String × String)) :
    evictLoop now maxL lt ctx =
      (lt.dropWhile (fun p => decide (now - p.1 > maxL)),
       (lt.takeWhile (fun p => decide (now - p.1 > maxL))).foldl
         (fun m p => removeKey m p.2) ctx) := by
  induction lt generalizing ctx with
  | nil => rfl
  | cons q rest ih =>
    obtain ⟨t, cid⟩ := q
    by_cases h : now - t > maxL
    · simp only [evictLoop, if_pos h, List.dropWhile, List.takeWhile, decide_eq_true h]
      exact ih (removeKey ctx cid)
    · simp only [evictLoop, if_neg h, List.dropWhile, List.takeWhile,
        decide_eq_false h]
      rfl

/-- The head of a `dropWhile` result fails the predicate. -/
theorem dropWhile_head_false {α : Type} (p : α → Bool) (l : List α) (x : α)
    (t : List α) (h : l.dropWhile p = x :: t) : p x = false := by
  induction l with
  | nil => simp at h
  | cons a r ih =>
    by_cases ha : p a
    · rw [List.dropWhile_cons_of_pos ha] at h
      exact ih h
    · rw [List.dropWhile_cons_of_neg ha] at h
      cases h
      simpa using ha

/-- Evicting an already evicted state changes nothing. -/
theorem evict_idem (now : Nat) (st : ClientIds) :
    (st.check_lifetime_timeout now).check_lifetime_timeout now =
      st.check_lifetime_timeout now := by
  unfold ClientIds.check_lifetime_timeout
  rw [evictLoop_eq, evictLoop_eq]
  simp only
  rcases hd : st.lifetimes.dropWhile (fun p => decide (now - p.1 > st.max_lifetime)) with
    _ | ⟨x, t⟩
  · rw [hd]
    rfl
  · have hx := dropWhile_head_false _ _ _ _ hd
    rw [hd]
    rw [List.dropWhile_cons_of_neg (by simp [hx]), List.takeWhile_cons_of_neg (by simp [hx])]
    rfl

/-- C2 amended: eviction of the expired queue prefix (and of its ids from
the contexts map) happens in `check_client_id`, before the lookup — so
running the operation on an already evicted state is indistinguishable —
while `new_client_id` performs **no** eviction: it only appends to the
queue and inserts into the map. -/
theorem C2_eviction_amended :
    (∀ (now : Nat) (st : ClientIds),
       (st.check_lifetime_timeout now).lifetimes =
         st.lifetimes.dropWhile (fun p => decide (now - p.1 > st.max_lifetime)) ∧
       (st.check_lifetime_timeout now).contexts =
         (st.lifetimes.takeWhile (fun p => decide (now - p.1 > st.max_lifetime))).foldl
           (fun m p => removeKey m p.2) st.contexts) ∧
    (∀ (now : Nat) (client_id test next_test : String) (st : ClientIds),
       ClientIds.check_client_id now client_id test next_test st =
         ClientIds.check_client_id now client_id test next_test
           (st.check_lifetime_timeout now)) ∧
    (∀ (now : Nat) (client_id : String) (st : ClientIds),
       (ClientIds.new_client_id now client_id st).2.lifetimes =
         st.lifetimes ++ [(now, client_id)] ∧
       (ClientIds.new_client_id now client_id st).2.contexts =
         insertKey st.contexts client_id "Test01") := by
  refine ⟨?_, ?_, ?_⟩
  · intro now st
    unfold ClientIds.check_lifetime_timeout
    rw [evictLoop_eq]
    exact ⟨rfl, rfl⟩
  · intro now client_id test next_test st
    unfold ClientIds.check_client_id
    rw [evict_idem]
  · intro now client_id st
    exact ⟨rfl, rfl⟩

end Varlink

namespace Varlink

/-- Left cancellation for string concatenation. -/
theorem string_append_left_cancel (a b c : String) (h : a ++ b = a ++ c) : b = c := by
  have hd := congrArg String.data h
  rw [String.data_append, String.data_append] at hd
  have h2 := List.append_cancel_left hd
  cases b
  cases c
  exact congrArg String.mk h2

/-- C5 counterexample: a reply whose error name is not a declared
interface error but is a core `org.varlink.service` error name is mapped
to the `VarlinkError` variant, not to the unknown-error variant the claim
requires for every non-declared name. -/
theorem C5_counterexample :
    @fromReply Nat Unit "org.example.ping" ["TestError"] (fun _ _ => none)
      ⟨some "org.varlink.service.InterfaceNotFound", none⟩ =
      .varlinkError ⟨some "org.varlink.service.InterfaceNotFound", none⟩ ∧
    @fromReply Nat Unit "org.example.ping" ["TestError"] (fun _ _ => none)
      ⟨some "org.varlink.service.InterfaceNotFound", none⟩ ≠
      .unknownError ⟨some "org.varlink.service.InterfaceNotFound", none⟩ := by
  refine ⟨by decide, by decide⟩

/-- C5 amended: the generated `Error` enum has one variant per IDL error
plus `VarlinkError`, `UnknownError_`, `IOError_` and `JSONError_`; the
`From<Reply>` conversion maps a reply recognized as a core
`org.varlink.service` error to `VarlinkError`, a reply whose error name is
`"<iface>.<E>"` for a declared `E` to the variant `E` with the
deserialized parameters payload, and a reply with any other error name
(or none) to the unknown-error variant carrying the raw reply. -/
theorem C5_error_mapping_amended :
    (∀ (errs : List String) (en : String), en ∈ errs →
       (en ++ "(Option<" ++ en ++ "Args_>)") ∈ errorEnumVariants errs) ∧
    (∀ errs : List String,
       "VarlinkError(varlink::Error)" ∈ errorEnumVariants errs ∧
       "UnknownError_(varlink::Reply)" ∈ errorEnumVariants errs ∧
       "IOError_(io::Error)" ∈ errorEnumVariants errs ∧
       "JSONError_(serde_json::Error)" ∈ errorEnumVariants errs) ∧
    (∀ (V A : Type) (iface : String) (errs : List String)
       (des : String → V → Option (Option A)) (r : Reply V),
       is_error r = true → fromReply iface errs des r = .varlinkError r) ∧
    (∀ (V A : Type) (iface : String) (errs : List String)
       (des : String → V → Option (Option A)) (r : Reply V) (en : String),
       is_error r = false → en ∈ errs → r.error = some (iface ++ "." ++ en) →
       fromReply iface errs des r = .declared en (declPayload des en r.parameters)) ∧
    (∀ (V A : Type) (iface : String) (errs : List String)
       (des : String → V → Option (Option A)) (r : Reply V),
       is_error r = false →
       (∀ en ∈ errs, r.error ≠ some (iface ++ "." ++ en)) →
       fromReply iface errs des r = .unknownError r) := by
  refine ⟨?_, ?_, ?_, ?_, ?_⟩
  · intro errs en hmem
    unfold errorEnumVariants
    exact List.mem_append_left _ (List.mem_map_of_mem _ hmem)
  · intro errs
    unfold errorEnumVariants
    refine ⟨?_, ?_, ?_, ?_⟩ <;> exact List.mem_append_right _ (by simp)
  · intro V A iface errs des r herr
    unfold fromReply
    rw [herr]
    rfl
  · intro V A iface errs des r en herr hmem hte
    unfold fromReply
    rw [herr]
    simp only [Bool.false_eq_true, if_false]
    rw [hte]
    obtain ⟨en2, hfind⟩ : ∃ x,
        errs.find? (fun x => (iface ++ "." ++ en) == iface ++ "." ++ x) = some x := by
      have : (errs.find? (fun x => (iface ++ "." ++ en) == iface ++ "." ++ x)).isSome :=
        List.find?_isSome.mpr ⟨en, hmem, by simp⟩
      exact Option.isSome_iff_exists.mp this
    have heq : iface ++ "." ++ en = iface ++ "." ++ en2 := by
      have := List.find?_some hfind
      simpa using this
    have hen : en2 = en :=
      (string_append_left_cancel (iface ++ ".") en en2 heq).symm
    dsimp only
    rw [hfind, hen]
  · intro V A iface errs des r herr hnone
    unfold fromReply
    rw [herr]
    simp only [Bool.false_eq_true, if_false]
    cases he : r.error with
    | none => rfl
    | some te =>
      have hfind : errs.find? (fun en => te == iface ++ "." ++ en) = none := by
        rw [List.find?_eq_none]
        intro x hx
        have := hnone x hx
        rw [he] at this
        simp
        intro hcontra
        exact this (by rw [hcontra])
      dsimp only
      rw [hfind]

/-- C5 amended witness: the three `From<Reply>` branches at concrete
replies for the interface `org.example.ping` with declared error `E`. -/
theorem C5_error_mapping_amended_witness :
    @fromReply Nat Unit "org.example.ping" ["E"] (fun _ _ => none)
      ⟨some "org.varlink.service.MethodNotFound", none⟩ =
      .varlinkError ⟨some "org.varlink.service.MethodNotFound", none⟩ ∧
    @fromReply Nat Unit "org.example.ping" ["E"] (fun _ _ => none)
      ⟨some "org.example.ping.E", none⟩ =
      .declared "E" (@declPayload Nat Unit (fun _ _ => none) "E" none) ∧
    @fromReply Nat Unit "org.example.ping" ["E"] (fun _ _ => none)
      ⟨some "org.example.ping.Other", none⟩ =
      .unknownError ⟨some "org.example.ping.Other", none⟩ :=
  ⟨C5_error_mapping_amended.2.2.1 Nat Unit "org.example.ping" ["E"] (fun _ _ => none)
     ⟨some "org.varlink.service.MethodNotFound", none⟩ (by decide),
   C5_error_mapping_amended.2.2.2.1 Nat Unit "org.example.ping" ["E"] (fun _ _ => none)
     ⟨some "org.example.ping.E", none⟩ "E" (by decide) (by decide) (by decide),
   C5_error_mapping_amended.2.2.2.2 Nat Unit "org.example.ping" ["E"] (fun _ _ => none)
     ⟨some "org.example.ping.Other", none⟩ (by decide) (by decide)⟩

end Varlink

namespace Varlink

/-- Full unfolding of the dictionary arm of `toRustExt` off the
empty-inline-struct special case. -/
theorem toRust_dict_full (v : VTypeExt) (parent : String)
    (h : v ≠ .plain (.vstruct (.mk []))) :
    toRustExt (.dict v) parent =
      ("varlink::StringHashMap<" ++ (toRustExt v parent).1 ++ ">",
       (toRustExt v parent).2.1, (toRustExt v parent).2.2) := by
  cases v with
  | plain t =>
    cases t with
    | vstruct s =>
      cases s with
      | mk elts =>
        cases elts with
        | nil => exact absurd rfl h
        | cons a r => rfl
    | bool => rfl
    | int => rfl
    | float => rfl
    | string => rfl
    | object => rfl
    | typename n => rfl
    | venum es => rfl
  | array v2 => rfl
  | dict v2 => rfl
  | opt v2 => rfl

/-- Every type expression has positive size. -/
theorem sizeTE_pos (t : VTypeExt) : 1 ≤ sizeTE t := by
  cases t <;> simp [sizeTE]

/-- `sumQ` is additive over queue concatenation. -/
theorem sumQ_append (a b : List (String × VStruct)) :
    sumQ (a ++ b) = sumQ a + sumQ b := by
  induction a with
  | nil => simp [sumQ]
  | cons q r ih => simp [sumQ, ih]; omega

/-- The struct entries `to_rust` queues for one type expression are
strictly smaller than the expression: a queued struct is a proper
sub-term. -/
theorem toRust_queued_lt (n : Nat) :
    ∀ (t : VTypeExt), sizeTE t ≤ n → ∀ (p : String),
      sumQ (toRustExt t p).2.2 < sizeTE t := by
  induction n with
  | zero =>
    intro t h
    exact absurd h (by have := sizeTE_pos t; omega)
  | succ n ih =>
    intro t hle p
    cases t with
    | plain u =>
      cases u with
      | vstruct v =>
        simp [toRustExt, sumQ, sizeTE, sizeT]
        omega
      | bool => simp [toRustExt, sumQ, sizeTE, sizeT]
      | int => simp [toRustExt, sumQ, sizeTE, sizeT]
      | float => simp [toRustExt, sumQ, sizeTE, sizeT]
      | string => simp [toRustExt, sumQ, sizeTE, sizeT]
      | object => simp [toRustExt, sumQ, sizeTE, sizeT]
      | typename v => simp [toRustExt, sumQ, sizeTE, sizeT]
      | venum es => simp [toRustExt, sumQ, sizeTE, sizeT]
    | array v =>
      have h1 : sizeTE v ≤ n := by
        have : sizeTE (.array v) = 1 + sizeTE v := by simp [sizeTE]
        omega
      have h2 := ih v h1 p
      have : sizeTE (.array v) = 1 + sizeTE v := by simp [sizeTE]
      simp only [toRustExt]
      omega
    | opt v =>
      have h1 : sizeTE v ≤ n := by
        have : sizeTE (.opt v) = 1 + sizeTE v := by simp [sizeTE]
        omega
      have h2 := ih v h1 p
      have : sizeTE (.opt v) = 1 + sizeTE v := by simp [sizeTE]
      simp only [toRustExt]
      omega
    | dict v =>
      have hsz : sizeTE (.dict v) = 1 + sizeTE v := by simp [sizeTE]
      by_cases hv : v = .plain (.vstruct (.mk []))
      · subst hv
        show sumQ [] < _
        have := sizeTE_pos (.dict (.plain (.vstruct (.mk []))))
        simp [sumQ]
        omega
      · have h1 : sizeTE v ≤ n := by omega
        have h2 := ih v h1 p
        rw [toRust_dict_full v p hv]
        simp only
        omega

/-- Queue growth from one struct's fields is bounded by the field list. -/
theorem queuedOfArgs_le (name : String) (elts : List VArgument) :
    sumQ (queuedOfArgs name elts) ≤ sizeArgs elts := by
  induction elts with
  | nil => simp [queuedOfArgs, sumQ, sizeArgs]
  | cons a rest ih =>
    cases a with
    | mk en ty =>
      have h1 := toRust_queued_lt (sizeTE ty) ty le_rfl (name ++ "_" ++ en)
      simp only [queuedOfArgs, sizeArgs, sizeArg, sumQ_append]
      omega

/-- The structs queued while emitting one queued struct are strictly
smaller than it. -/
theorem queuedOfStruct_lt (name : String) (v : VStruct) :
    sumQ (queuedOfStruct name v) < sizeVS v := by
  cases v with
  | mk elts =>
    have := queuedOfArgs_le name elts
    simp only [queuedOfStruct, sizeVS]
    omega

/-- One loop iteration never grows the queued size. -/
theorem nextQueue_le (sv : List (String × VStruct)) :
    sumQ (nextQueue sv) ≤ sumQ sv := by
  induction sv with
  | nil => simp [nextQueue, sumQ]
  | cons q rest ih =>
    cases q with
    | mk n v =>
      have := queuedOfStruct_lt n v
      simp only [nextQueue, sumQ, sumQ_append]
      omega

/-- One loop iteration on a non-empty queue strictly shrinks the queued
size. -/
theorem nextQueue_lt (q : String × VStruct) (rest : List (String × VStruct)) :
    sumQ (nextQueue (q :: rest)) < sumQ (q :: rest) := by
  cases q with
  | mk n v =>
    have h1 := queuedOfStruct_lt n v
    have h2 := nextQueue_le rest
    simp only [nextQueue, sumQ, sumQ_append]
    omega

/-- Bounded-measure form of the loop termination. -/
theorem stepQueues_reaches_empty (m : Nat) :
    ∀ (sv : List (String × VStruct)) (ev : List (String × List String)),
      sumQ sv ≤ m → ∃ n, stepQueues^[n] (sv, ev) = ([], []) := by
  induction m with
  | zero =>
    intro sv ev h
    cases sv with
    | nil => exact ⟨1, rfl⟩
    | cons q rest =>
      exfalso
      have h1 : 1 ≤ sizeVS q.2 := by cases q.2 with | mk elts => simp [sizeVS]
      have : sumQ (q :: rest) = sizeVS q.2 + sumQ rest := rfl
      omega
  | succ m ih =>
    intro sv ev h
    cases sv with
    | nil => exact ⟨1, rfl⟩
    | cons q rest =>
      have hlt := nextQueue_lt q rest
      obtain ⟨n, hn⟩ := ih (nextQueue (q :: rest)) [] (by omega)
      refine ⟨n + 1, ?_⟩
      rw [Function.iterate_succ_apply]
      exact hn

/-- C4: the nested-type emission loop of `Interface::to_rust` terminates
from every pair of work queues, and its fixed point is the state with both
the struct queue and the enum queue empty: every queued inline struct and
enum is drained. -/
theorem C4_emission_loop_terminates (sv : List (String × VStruct))
    (ev : List (String × List String)) :
    ∃ n, stepQueues^[n] (sv, ev) = ([], []) :=
  stepQueues_reaches_empty (sumQ sv) sv ev le_rfl

end Varlink

namespace Varlink

/-- C9: connecting to `exec:PROGRAM` spawns `PROGRAM` with the pre-bound
listener on fd 3 and environment `LISTEN_FDS=1`, `LISTEN_FDNAMES=varlink`,
`LISTEN_PID=<child pid>`, rewrites the address to the unix address the
child listens on, and dials that abstract socket (the leading `@`
replaced by a NUL byte) before connecting. -/
theorem C9_exec_connect (prog path : List Char) (pid : Nat)
    (hsemi : ';' ∉ path) :
    connect (chars "exec:" ++ prog) path pid =
      (some { executable := prog,
              arg := chars "--varlink=unix:@" ++ path,
              env := [(chars "LISTEN_FDS", chars "1"),
                      (chars "LISTEN_FDNAMES", chars "varlink"),
                      (chars "LISTEN_PID", chars (toString pid))],
              fd3IsListener := true },
       .unixAbstract ((Char.ofNat 0) :: path),
       chars "unix:@" ++ path) := by
  have hpre : (chars "exec:").isPrefixOf (chars "exec:" ++ prog) = true := by
    rw [ List.isPrefixOf_iff_prefix]
    exact List.prefix_append _ _
  have htake : path.takeWhile (fun c => c ≠ ';') = path :=
    List.takeWhile_eq_self_iff.mpr
      (fun c hc => decide_eq_true (fun h => hsemi (h ▸ hc)))
  simp only [connect, varlink_exec, hpre, if_true]
  simp only [show List.drop 5 (chars "exec:" ++ prog) = prog from rfl,
    show (chars "tcp:").isPrefixOf (chars "unix:@" ++ path) = false from rfl,
    show (chars "unix:").isPrefixOf (chars "unix:@" ++ path) = true from rfl,
    show List.drop 5 (chars "unix:@" ++ path) = ('@' :: path) from rfl,
    Bool.false_eq_true, if_false, if_true]
  rw [show List.takeWhile (fun c => decide (c ≠ ';')) ('@' :: path) =
      '@' :: List.takeWhile (fun c => decide (c ≠ ';')) path from rfl]
  rw [htake]
  rw [show (chars "@").isPrefixOf ('@' :: path) = true by simp [chars, List.isPrefixOf]]
  simp only [if_true]
  rw [show replaceFirst ('@' :: path) '@' (Char.ofNat 0) = (Char.ofNat 0) :: path from rfl]

end Varlink

namespace Varlink

/-- C9 witness: a concrete `exec:` connection. -/
theorem C9_exec_connect_witness :
    ';' ∉ chars "abc123" ∧
    connect (chars "exec:" ++ chars "/bin/prog") (chars "abc123") 42 =
      (some { executable := chars "/bin/prog",
              arg := chars "--varlink=unix:@" ++ chars "abc123",
              env := [(chars "LISTEN_FDS", chars "1"),
                      (chars "LISTEN_FDNAMES", chars "varlink"),
                      (chars "LISTEN_PID", chars (toString 42))],
              fd3IsListener := true },
       .unixAbstract ((Char.ofNat 0) :: chars "abc123"),
       chars "unix:@" ++ chars "abc123") :=
  ⟨by decide, C9_exec_connect (chars "/bin/prog") (chars "abc123") 42 (by decide)⟩

end Varlink

namespace Varlink

/-- Splitting on underscore leaves an underscore-free string whole. -/
theorem splitUS_no_us (l : RStr) (h : ∀ c ∈ l, c ≠ usCp) : splitUS l = [l] := by
  induction l with
  | nil => rfl
  | cons c rest ih =>
    have hc : c ≠ usCp := h c (by simp)
    have hrest := ih (fun x hx => h x (by simp [hx]))
    simp only [splitUS, if_neg hc, hrest]

/-- Unfolding `toLowerCp` into Prop arithmetic. -/
theorem toLowerCp_eq (c : Nat) :
    toLowerCp c = if 65 ≤ c ∧ c ≤ 90 then c + 32 else c := by
  unfold toLowerCp isUpperCp
  by_cases h : 65 ≤ c ∧ c ≤ 90
  · rw [if_pos h, if_pos]
    simp [h.1, h.2]
  · rw [if_neg h]
    rw [if_neg]
    intro hb
    simp only [Bool.and_eq_true, decide_eq_true_eq] at hb
    exact h hb

/-- An alphanumeric character never lowercases to the apostrophe. -/
theorem toLower_alnum_ne_apos (c : Nat) (h : isAlnumCp c = true) :
    toLowerCp c ≠ aposCp := by
  unfold isAlnumCp at h
  simp only [Bool.or_eq_true, Bool.and_eq_true, decide_eq_true_eq] at h
  rw [toLowerCp_eq]
  unfold aposCp
  by_cases hc : 65 ≤ c ∧ c ≤ 90
  · rw [if_pos hc]
    omega
  · rw [if_neg hc]
    omega

/-- A lowercased alphanumeric list is never the lone apostrophe. -/
theorem map_toLower_alnum_ne_apos (acc : RStr) (h : ∀ c ∈ acc, isAlnumCp c = true) :
    acc.map toLowerCp ≠ [aposCp] := by
  intro hcon
  cases acc with
  | nil => simp at hcon
  | cons a r =>
    cases r with
    | nil =>
      simp only [List.map_cons, List.map_nil, List.cons.injEq, and_true] at hcon
      exact toLower_alnum_ne_apos a (h a (by simp)) hcon
    | cons b r2 => simp at hcon

/-- Fusion of `to_snake_case`'s word loop with the spec-side camel split
(amended to split after a non-uppercase character) followed by
lowercasing, on alphanumeric input. -/
theorem pwLoop_eq_camel (cs : RStr) :
    ∀ (acc : RStr) (lu : Bool),
      (∀ c ∈ cs, isAlnumCp c = true) →
      (∀ c ∈ acc, isAlnumCp c = true) →
      lu = ((acc.getLast?).map isUpperCp).getD false →
      pwLoop cs (acc.map toLowerCp) lu =
        (camelLoop (fun p => !isUpperCp p) cs acc).map (List.map toLowerCp) := by
  induction cs with
  | nil =>
    intro acc lu hcs hacc hlu
    rfl
  | cons c rest ih =>
    intro acc lu hcs hacc hlu
    have hcal : isAlnumCp c = true := hcs c (by simp)
    have hrest : ∀ x ∈ rest, isAlnumCp x = true := fun x hx => hcs x (by simp [hx])
    by_cases hacc0 : acc = []
    · subst hacc0
      have hlu0 : lu = false := by simpa using hlu
      subst hlu0
      rw [show pwLoop (c :: rest) (List.map toLowerCp []) false =
          pwLoop rest ([] ++ [toLowerCp c]) (isUpperCp c) by
        conv_lhs => rw [pwLoop]
        rw [if_neg (by simp)]
        rfl]
      rw [show camelLoop (fun p => !isUpperCp p) (c :: rest) [] =
          camelLoop (fun p => !isUpperCp p) rest ([] ++ [c]) by
        conv_lhs => rw [camelLoop]
        rw [if_neg (by simp)]]
      have := ih [c] (isUpperCp c) hrest (by simpa using hcal) (by simp)
      simpa using this
    · obtain ⟨p, hp⟩ : ∃ p, acc.getLast? = some p := by
        cases hl : acc.getLast? with
        | none => exact absurd (List.getLast?_eq_none_iff.mp hl) hacc0
        | some q => exact ⟨q, rfl⟩
      have hlup : lu = isUpperCp p := by
        rw [hp] at hlu
        simpa using hlu
      have hlast : lastOk (fun x => !isUpperCp x) acc = !isUpperCp p := by
        unfold lastOk
        rw [hp]
      by_cases hcnd : isUpperCp c = true ∧ isUpperCp p = false
      · rw [show pwLoop (c :: rest) (acc.map toLowerCp) lu =
            acc.map toLowerCp :: pwLoop rest [toLowerCp c] (isUpperCp c) by
          conv_lhs => rw [pwLoop]
          rw [if_pos ⟨by simpa using hacc0, map_toLower_alnum_ne_apos acc hacc,
            hcnd.1, by rw [hlup, hcnd.2]⟩]]
        rw [show camelLoop (fun x => !isUpperCp x) (c :: rest) acc =
            acc :: camelLoop (fun x => !isUpperCp x) rest [c] by
          conv_lhs => rw [camelLoop]
          rw [if_pos ⟨hacc0, hcnd.1, by rw [hlast, hcnd.2]; rfl⟩]]
        rw [List.map_cons]
        congr 1
        have := ih [c] (isUpperCp c) hrest (by simpa using hcal) (by simp)
        simpa using this
      · have hnotspec : ¬(acc ≠ [] ∧ isUpperCp c = true ∧
            lastOk (fun x => !isUpperCp x) acc = true) := by
          intro ⟨h1, h2, h3⟩
          rw [hlast] at h3
          exact hcnd ⟨h2, by simpa using h3⟩
        have hnotcode : ¬(acc.map toLowerCp ≠ [] ∧ acc.map toLowerCp ≠ [aposCp] ∧
            isUpperCp c = true ∧ lu = false) := by
          intro ⟨h1, h2, h3, h4⟩
          rw [hlup] at h4
          exact hcnd ⟨h3, h4⟩
        rw [show pwLoop (c :: rest) (acc.map toLowerCp) lu =
            pwLoop rest (acc.map toLowerCp ++ [toLowerCp c]) (isUpperCp c) by
          conv_lhs => rw [pwLoop]
          rw [if_neg hnotcode]]
        rw [show camelLoop (fun x => !isUpperCp x) (c :: rest) acc =
            camelLoop (fun x => !isUpperCp x) rest (acc ++ [c]) by
          conv_lhs => rw [camelLoop]
          rw [if_neg hnotspec]]
        have hmap : acc.map toLowerCp ++ [toLowerCp c] = (acc ++ [c]).map toLowerCp := by
          rw [List.map_append]
          rfl
        rw [hmap]
        refine ih (acc ++ [c]) (isUpperCp c) hrest ?_ ?_
        · intro x hx
          rcases List.mem_append.mp hx with hx1 | hx2
          · exact hacc x hx1
          · simpa using (by simpa using hx2 : x = c) ▸ hcal
        · rw [List.getLast?_concat]
          rfl

end Varlink

namespace Varlink

/-- An alphanumeric character is not the underscore. -/
theorem alnum_ne_us (x : Nat) (h : isAlnumCp x = true) : x ≠ usCp := by
  unfold isAlnumCp at h
  simp only [Bool.or_eq_true, Bool.and_eq_true, decide_eq_true_eq] at h
  unfold usCp
  omega

/-- C3 counterexample: `A1B` is a CamelCase method name; the generator
emits the handler entry point `a1_b` (it splits before an uppercase
letter after the digit `1`), while the claimed algorithm - which splits
only after a lowercase character - yields `a1b`. -/
theorem C3_counterexample :
    isMethodName (codes "A1B") = true ∧
    handlerEntryName (codes "A1B") = codes "a1_b" ∧
    snakeSpec (codes "A1B") = codes "a1b" ∧
    handlerEntryName (codes "A1B") ≠ snakeSpec (codes "A1B") := by
  refine ⟨by decide, by decide, by decide, by decide⟩

/-- C3 amended: for every IDL method name, the emitted handler entry point
equals the spec's snake-case algorithm with its split condition corrected
from "follows a lowercase character" to "follows a character that is not
uppercase". -/
theorem C3_snake_case_amended (s : RStr) (h : isMethodName s = true) :
    handlerEntryName s = snakeSpecFixed s := by
  cases s with
  | nil => exact absurd h (by decide)
  | cons c t =>
    have halnum : ∀ x ∈ (c :: t), isAlnumCp x = true := by
      unfold isMethodName at h
      rw [Bool.and_eq_true] at h
      exact fun x hx => List.all_eq_true.mp h.2 x hx
    have hno_us : ∀ x ∈ (c :: t), x ≠ usCp :=
      fun x hx => alnum_ne_us x (halnum x hx)
    have hcus : ¬(decide (c = usCp) = true) := by
      simp only [decide_eq_true_eq]
      exact hno_us c (by simp)
    unfold handlerEntryName to_snake_case snakeSpecFixed
    rw [List.takeWhile_cons, if_neg hcus, List.dropWhile_cons, if_neg hcus,
      splitUS_no_us (c :: t) hno_us]
    simp only [List.length_nil, List.replicate_zero, List.nil_append,
      List.flatMap_cons, List.flatMap_nil, List.append_nil]
    rw [show processWords [c :: t] = pwLoop (c :: t) [] false ++ processWords [] by
      conv_lhs => rw [processWords]
      rw [if_neg (by simp)]]
    rw [show processWords ([] : List RStr) = [] from rfl, List.append_nil]
    have hfus := pwLoop_eq_camel (c :: t) [] false halnum (by simp) (by simp)
    simp only [List.map_nil] at hfus
    rw [hfus]

/-- C3 amended witness: the corrected algorithm agrees with the generator
on the method name `A1B`. -/
theorem C3_snake_case_amended_witness :
    isMethodName (codes "A1B") = true ∧
    handlerEntryName (codes "A1B") = snakeSpecFixed (codes "A1B") :=
  ⟨by decide, C3_snake_case_amended (codes "A1B") (by decide)⟩

end Varlink

namespace Varlink

/-- If some `x` is not in the uppercase range, `isUpperCp` answers false. -/
theorem isUpperCp_false_of (x : Nat) (hx : ¬(65 ≤ x ∧ x ≤ 90)) :
    isUpperCp x = false := by
  unfold isUpperCp
  rw [Bool.and_eq_false_iff]
  rcases Nat.lt_or_ge x 65 with h | h
  · exact Or.inl (decide_eq_false_iff_not.mpr (by omega))
  · exact Or.inr (decide_eq_false_iff_not.mpr (by omega))

/-- Lowercasing never yields an uppercase character. -/
theorem toLower_not_upper (c : Nat) : isUpperCp (toLowerCp c) = false := by
  rw [toLowerCp_eq]
  by_cases h : 65 ≤ c ∧ c ≤ 90
  · rw [if_pos h]
    exact isUpperCp_false_of _ (by omega)
  · rw [if_neg h]
    exact isUpperCp_false_of _ h

/-- Lowercasing a non-underscore character never yields the underscore. -/
theorem toLower_ne_us (c : Nat) (h : c ≠ usCp) : toLowerCp c ≠ usCp := by
  rw [toLowerCp_eq]
  unfold usCp at h ⊢
  by_cases hc : 65 ≤ c ∧ c ≤ 90
  · rw [if_pos hc]
    omega
  · rw [if_neg hc]
    omega

/-- Lowercasing leaves a non-uppercase character unchanged. -/
theorem toLower_id (c : Nat) (h : isUpperCp c = false) : toLowerCp c = c := by
  unfold toLowerCp
  rw [h]
  rfl

/-- The word loop always yields at least one piece. -/
theorem pwLoop_ne_nil (cs : RStr) : ∀ (buf : RStr) (lu : Bool), pwLoop cs buf lu ≠ [] := by
  induction cs with
  | nil =>
    intro buf lu
    simp [pwLoop]
  | cons c rest ih =>
    intro buf lu
    rw [pwLoop]
    by_cases hcond : buf ≠ [] ∧ buf ≠ [aposCp] ∧ isUpperCp c = true ∧ lu = false
    · rw [if_pos hcond]
      simp
    · rw [if_neg hcond]
      exact ih _ _

/-- Pieces of the word loop are non-empty when the word or the buffer is. -/
theorem pwLoop_mem_ne_nil (cs : RStr) :
    ∀ (buf : RStr) (lu : Bool), (buf ≠ [] ∨ cs ≠ []) →
      ∀ p ∈ pwLoop cs buf lu, p ≠ [] := by
  induction cs with
  | nil =>
    intro buf lu hor p hp
    have hbuf : buf ≠ [] := by
      rcases hor with h | h
      · exact h
      · exact absurd rfl h
    have : p = buf := by simpa [pwLoop] using hp
    rw [this]
    exact hbuf
  | cons c rest ih =>
    intro buf lu hor p hp
    rw [pwLoop] at hp
    by_cases hcond : buf ≠ [] ∧ buf ≠ [aposCp] ∧ isUpperCp c = true ∧ lu = false
    · rw [if_pos hcond] at hp
      rcases List.mem_cons.mp hp with h | h
      · rw [h]
        exact hcond.1
      · exact ih [toLowerCp c] (isUpperCp c) (Or.inl (by simp)) p h
    · rw [if_neg hcond] at hp
      rcases Classical.em (buf = []) with hb | hb
      · subst hb
        exact ih [toLowerCp c] (isUpperCp c) (Or.inl (by simp)) p (by simpa using hp)
      · exact ih (buf ++ [toLowerCp c]) (isUpperCp c) (Or.inl (by simp [hb])) p hp
  
/-- Every character of every piece of the word loop comes from the buffer
or is a lowercased character of the word. -/
theorem pwLoop_mem_chars (cs : RStr) :
    ∀ (buf : RStr) (lu : Bool) (p : RStr), p ∈ pwLoop cs buf lu →
      ∀ x ∈ p, x ∈ buf ∨ ∃ d ∈ cs, x = toLowerCp d := by
  induction cs with
  | nil =>
    intro buf lu p hp x hx
    have : p = buf := by simpa [pwLoop] using hp
    rw [this] at hx
    exact Or.inl hx
  | cons c rest ih =>
    intro buf lu p hp x hx
    rw [pwLoop] at hp
    by_cases hcond : buf ≠ [] ∧ buf ≠ [aposCp] ∧ isUpperCp c = true ∧ lu = false
    · rw [if_pos hcond] at hp
      rcases List.mem_cons.mp hp with h | h
      · rw [h] at hx
        exact Or.inl hx
      · rcases ih [toLowerCp c] (isUpperCp c) p h x hx with h0 | ⟨d, hd, hxd⟩
        · exact Or.inr ⟨c, by simp, by simpa using h0⟩
        · exact Or.inr ⟨d, by simp [hd], hxd⟩
    · rw [if_neg hcond] at hp
      rcases ih (buf ++ [toLowerCp c]) (isUpperCp c) p hp x hx with h0 | ⟨d, hd, hxd⟩
      · rcases List.mem_append.mp h0 with h1 | h1
        · exact Or.inl h1
        · exact Or.inr ⟨c, by simp, by simpa using h1⟩
      · exact Or.inr ⟨d, by simp [hd], hxd⟩

/-- `splitUS` never yields the empty list of pieces. -/
theorem splitUS_ne_nil (l : RStr) : splitUS l ≠ [] := by
  induction l with
  | nil => simp [splitUS]
  | cons c rest ih =>
    rw [splitUS]
    by_cases hc : c = usCp
    · rw [if_pos hc]
      simp
    · rw [if_neg hc]
      cases hsp : splitUS rest with
      | nil => exact absurd hsp ih
      | cons w ws => simp

/-- No piece of `splitUS` contains an underscore. -/
theorem splitUS_mem_no_us (l : RStr) :
    ∀ w ∈ splitUS l, ∀ c ∈ w, c ≠ usCp := by
  induction l with
  | nil =>
    intro w hw c hc
    have : w = [] := by simpa [splitUS] using hw
    rw [this] at hc
    simp at hc
  | cons a rest ih =>
    intro w hw c hc
    rw [splitUS] at hw
    by_cases ha : a = usCp
    · rw [if_pos ha] at hw
      rcases List.mem_cons.mp hw with h | h
      · rw [h] at hc
        simp at hc
      · exact ih w h c hc
    · rw [if_neg ha] at hw
      cases hsp : splitUS rest with
      | nil => exact absurd hsp (splitUS_ne_nil rest)
      | cons v vs =>
        rw [hsp] at hw
        rcases List.mem_cons.mp hw with h | h
        · rw [h] at hc
          rcases List.mem_cons.mp hc with h1 | h1
          · rw [h1]
            exact ha
          · exact ih v (by rw [hsp]; simp) c h1
        · exact ih w (by rw [hsp]; simp [h]) c hc

/-- Membership in the processed word list. -/
theorem processWords_mem (ws : List RStr) :
    ∀ p ∈ processWords ws, ∃ w, w ∈ ws ∧ w ≠ [] ∧ p ∈ pwLoop w [] false := by
  induction ws with
  | nil =>
    intro p hp
    simp [processWords] at hp
  | cons w rest ih =>
    intro p hp
    rw [processWords] at hp
    by_cases hw : w = []
    · rw [if_pos hw] at hp
      obtain ⟨v, hv1, hv2, hv3⟩ := ih p hp
      exact ⟨v, by simp [hv1], hv2, hv3⟩
    · rw [if_neg hw] at hp
      rcases List.mem_append.mp hp with h | h
      · exact ⟨w, by simp, hw, h⟩
      · obtain ⟨v, hv1, hv2, hv3⟩ := ih p h
        exact ⟨v, by simp [hv1], hv2, hv3⟩

/-- If processing yields nothing, every word was empty. -/
theorem processWords_nil (ws : List RStr) (h : processWords ws = []) :
    ∀ w ∈ ws, w = [] := by
  induction ws with
  | nil => simp
  | cons w rest ih =>
    rw [processWords] at h
    by_cases hw : w = []
    · rw [if_pos hw] at h
      intro v hv
      rcases List.mem_cons.mp hv with h1 | h1
      · rw [h1, hw]
      · exact ih h v h1
    · rw [if_neg hw] at h
      exfalso
      rcases hpw : pwLoop w [] false with _ | ⟨x, xs⟩
      · exact pwLoop_ne_nil w [] false hpw
      · rw [hpw] at h
        simp at h

/-- The words `to_snake_case` collects are non-empty and contain neither
uppercase characters nor underscores. -/
theorem tsc_words_good (rest : RStr) :
    ∀ p ∈ processWords (splitUS rest),
      p ≠ [] ∧ ∀ x ∈ p, isUpperCp x = false ∧ x ≠ usCp := by
  intro p hp
  obtain ⟨w, hw, hwne, hpw⟩ := processWords_mem _ p hp
  have hno := splitUS_mem_no_us rest w hw
  refine ⟨pwLoop_mem_ne_nil w [] false (Or.inr hwne) p hpw, ?_⟩
  intro x hx
  rcases pwLoop_mem_chars w [] false p hpw x hx with h0 | ⟨d, hd, hxd⟩
  · simp at h0
  · rw [hxd]
    exact ⟨toLower_not_upper d, toLower_ne_us d (hno d hd)⟩

end Varlink

namespace Varlink

/-- On a word without uppercase characters the word loop collects exactly
one piece: the buffer followed by the word (lowercasing is the identity
there). -/
theorem pwLoop_no_upper (cs : RStr) :
    ∀ (buf : RStr) (lu : Bool), (∀ c ∈ cs, isUpperCp c = false) →
      pwLoop cs buf lu = [buf ++ cs] := by
  induction cs with
  | nil =>
    intro buf lu hcs
    simp [pwLoop]
  | cons c rest ih =>
    intro buf lu hcs
    have hc : isUpperCp c = false := hcs c (by simp)
    rw [pwLoop]
    rw [if_neg (by
      intro hcond
      rw [hcond.2.2.1] at hc
      simp at hc)]
    rw [toLower_id c hc]
    rw [ih (buf ++ [c]) (isUpperCp c) (fun x hx => hcs x (by simp [hx]))]
    simp

/-- Reprocessing a list of non-empty, uppercase-free words is the
identity. -/
theorem processWords_good_id (W : List RStr)
    (h : ∀ w ∈ W, w ≠ [] ∧ ∀ x ∈ w, isUpperCp x = false) :
    processWords W = W := by
  induction W with
  | nil => rfl
  | cons w rest ih =>
    obtain ⟨hne, hup⟩ := h w (by simp)
    rw [processWords, if_neg hne, pwLoop_no_upper w [] false hup]
    rw [ih (fun v hv => h v (by simp [hv]))]
    rfl

/-- Splitting an underscore-free word glued with an underscore peels the
word off. -/
theorem splitUS_append_us (w : RStr) :
    ∀ (t : RStr), (∀ c ∈ w, c ≠ usCp) →
      splitUS (w ++ usCp :: t) = w :: splitUS t := by
  induction w with
  | nil =>
    intro t hw
    rw [List.nil_append, splitUS, if_pos rfl]
  | cons c w2 ih =>
    intro t hw
    have hc : c ≠ usCp := hw c (by simp)
    rw [List.cons_append, splitUS, if_neg hc,
      ih t (fun x hx => hw x (by simp [hx]))]

/-- Splitting the joined word list recovers the words, when they are
non-empty and underscore-free. -/
theorem splitUS_joinUS (W : List RStr) :
    W ≠ [] → (∀ w ∈ W, w ≠ [] ∧ ∀ c ∈ w, c ≠ usCp) →
      splitUS (joinUS W) = W := by
  induction W with
  | nil => intro h; exact absurd rfl h
  | cons w ws ih =>
    intro _ hgood
    cases ws with
    | nil =>
      show splitUS (joinUS [w]) = [w]
      rw [show joinUS [w] = w from rfl]
      exact splitUS_no_us w (hgood w (by simp)).2
    | cons v vs =>
      rw [joinUS_cons_of_ne w (v :: vs) (by simp)]
      rw [splitUS_append_us w (joinUS (v :: vs)) (hgood w (by simp)).2]
      rw [ih (by simp) (fun x hx => hgood x (by simp [hx]))]

/-- Joining after the empty words contributed by `k` leading underscores
prepends `k` underscores. -/
theorem joinUS_replicate_nil (k : Nat) (W : List RStr) (hW : W ≠ []) :
    joinUS (List.replicate k [] ++ W) = List.replicate k usCp ++ joinUS W := by
  induction k with
  | zero => simp
  | succ k ih =>
    have htail : List.replicate k ([] : RStr) ++ W ≠ [] := by
      intro hcon
      rcases List.append_eq_nil.mp hcon with ⟨_, h2⟩
      exact hW h2
    rw [List.replicate_succ, List.cons_append,
      joinUS_cons_of_ne [] (List.replicate k [] ++ W) htail, ih]
    simp [List.replicate_succ]

/-- Take/drop of the underscore prefix of `k` underscores followed by a
list that does not start with an underscore. -/
theorem tsc_split_replicate (k : Nat) (l : RStr) (hne : l ≠ [])
    (hhd : ∀ x t, l = x :: t → x ≠ usCp) :
    (List.replicate k usCp ++ l).takeWhile (fun c => c = usCp) =
      List.replicate k usCp ∧
    (List.replicate k usCp ++ l).dropWhile (fun c => c = usCp) = l := by
  induction k with
  | zero =>
    cases l with
    | nil => exact absurd rfl hne
    | cons x t =>
      have hx : ¬(decide (x = usCp) = true) := by
        simp only [decide_eq_true_eq]
        exact hhd x t rfl
      constructor
      · simp only [List.replicate_zero, List.nil_append]
        rw [List.takeWhile_cons, if_neg hx]
      · simp only [List.replicate_zero, List.nil_append]
        rw [List.dropWhile_cons, if_neg hx]
  | succ k ih =>
    rw [List.replicate_succ, List.cons_append]
    constructor
    · rw [List.takeWhile_cons, if_pos (by simp)]
      rw [(ih).1]
    · rw [List.dropWhile_cons, if_pos (by simp)]
      exact (ih).2

/-- The join of non-empty underscore-free words is non-empty and does not
start with an underscore. -/
theorem joinUS_head (W : List RStr)
    (hgood : ∀ w ∈ W, w ≠ [] ∧ ∀ x ∈ w, x ≠ usCp) (hW : W ≠ []) :
    joinUS W ≠ [] ∧ ∀ x t, joinUS W = x :: t → x ≠ usCp := by
  cases W with
  | nil => exact absurd rfl hW
  | cons w ws =>
    obtain ⟨hne, hus⟩ := hgood w (by simp)
    cases w with
    | nil => exact absurd rfl hne
    | cons a w2 =>
      have ha : a ≠ usCp := hus a (by simp)
      cases ws with
      | nil =>
        rw [show joinUS [a :: w2] = a :: w2 from rfl]
        exact ⟨by simp, fun x t hxt => by
          rw [(List.cons.injEq _ _ _ _).mp hxt |>.1] at ha
          exact ha⟩
      | cons v vs =>
        rw [joinUS_cons_of_ne (a :: w2) (v :: vs) (by simp), List.cons_append]
        exact ⟨by simp, fun x t hxt => by
          rw [(List.cons.injEq _ _ _ _).mp hxt |>.1] at ha
          exact ha⟩

end Varlink

namespace Varlink

/-- C10 counterexample: `to_snake_case` is not idempotent: on `"__"` it
yields `"_"`, and applying it again yields `""`. -/
theorem C10_counterexample :
    to_snake_case (codes "__") = codes "_" ∧
    to_snake_case (to_snake_case (codes "__")) = codes "" ∧
    to_snake_case (to_snake_case (codes "__")) ≠ to_snake_case (codes "__") := by
  refine ⟨by decide, by decide, by decide⟩

/-- C10 amended: `to_snake_case` is idempotent on every ASCII string
except those consisting solely of two or more underscores (on a string of
`k ≥ 2` underscores it yields `k - 1` underscores).  The ASCII restriction
is where this embedding models `char::is_uppercase`/`char::to_lowercase`
exactly; outside ASCII the Rust function is not idempotent in general
(an uppercase character with no lowercase mapping, such as U+03D2, passes
through lowercasing unchanged and triggers a split on the second pass). -/
theorem C10_idempotent_amended (s : RStr) (hascii : ∀ c ∈ s, c ≤ 127)
    (h : ¬(2 ≤ s.length ∧ ∀ c ∈ s, c = usCp)) :
    to_snake_case (to_snake_case s) = to_snake_case s := by
  by_cases hW : processWords (splitUS (s.dropWhile (fun c => c = usCp))) = []
  · have hrest : s.dropWhile (fun c => c = usCp) = [] := by
      rcases hd : s.dropWhile (fun c => c = usCp) with _ | ⟨x, t⟩
      · rfl
      · exfalso
        have hx : (fun c => decide (c = usCp)) x = false :=
          dropWhile_head_false _ s x t hd
        have hall := processWords_nil _ (by rw [hd] at hW; exact hW)
        have hxn : ¬(x = usCp) := by simpa using hx
        cases hsp : splitUS t with
        | nil => exact splitUS_ne_nil t hsp
        | cons w ws =>
          have hmem : (x :: w) ∈ splitUS (x :: t) := by
            rw [splitUS, if_neg hxn, hsp]
            simp
          have := hall (x :: w) hmem
          simp at this
    have hallus : ∀ c ∈ s, c = usCp := by
      intro c hc
      have hsplit := List.takeWhile_append_dropWhile
        (p := fun c => decide (c = usCp)) (l := s)
      rw [hrest, List.append_nil] at hsplit
      rw [← hsplit] at hc
      have := List.mem_takeWhile_imp hc
      simpa using this
    have hlen : s.length ≤ 1 := by
      by_contra hl
      exact h ⟨by omega, hallus⟩
    cases s with
    | nil => decide
    | cons a t =>
      cases t with
      | nil =>
        have ha : a = usCp := hallus a (by simp)
        rw [ha]
        decide
      | cons b t2 => simp at hlen
  · have hgood := tsc_words_good (s.dropWhile (fun c => c = usCp))
    have h1 : to_snake_case s =
        List.replicate (s.takeWhile (fun c => c = usCp)).length usCp ++
          joinUS (processWords (splitUS (s.dropWhile (fun c => c = usCp)))) := by
      unfold to_snake_case
      exact joinUS_replicate_nil _ _ hW
    have hjoin := joinUS_head _
      (fun w hw => ⟨(hgood w hw).1, fun x hx => ((hgood w hw).2 x hx).2⟩) hW
    rw [h1]
    conv_lhs => rw [to_snake_case]
    rw [(tsc_split_replicate _ _ hjoin.1 hjoin.2).1,
      (tsc_split_replicate _ _ hjoin.1 hjoin.2).2]
    rw [List.length_replicate]
    rw [splitUS_joinUS _ hW
      (fun w hw => ⟨(hgood w hw).1, fun x hx => ((hgood w hw).2 x hx).2⟩)]
    rw [processWords_good_id _
      (fun w hw => ⟨(hgood w hw).1, fun x hx => ((hgood w hw).2 x hx).1⟩)]
    exact joinUS_replicate_nil _ _ hW

/-- C10 amended witness: idempotence at the concrete name `FooBar`. -/
theorem C10_idempotent_amended_witness :
    (∀ c ∈ codes "FooBar", c ≤ 127) ∧
    ¬(2 ≤ (codes "FooBar").length ∧ ∀ c ∈ codes "FooBar", c = usCp) ∧
    to_snake_case (to_snake_case (codes "FooBar")) = to_snake_case (codes "FooBar") :=
  ⟨by decide, by decide,
   C10_idempotent_amended (codes "FooBar") (by decide) (by decide)⟩

end Varlink
